import Mathlib

/-!
Shallow embedding of the stuffbin repository (Go) for specification checking.

Go strings are modelled as lists of characters (`GoStr`), file contents as
lists of byte values (`Bytes`, each value the Nat value of a byte), and the
host operating system is assumed to be Unix: the path separator is a slash
and volume names are empty, matching the environment the repository's tests
run under.

The definitions mirror, function by function, the source files:
  stuff.go    : GetFileID, makeID, makeIDBytes, copyFile, Stuff, walkPaths, zipFiles
  unstuff.go  : UnStuff, GetStuff, UnZip, getZipBytes
  fs.go       : memFS (Add, List, Len, Size, Get, Read, Delete), File, cleanPath,
                MergeFS, NewFile
-/

set_option autoImplicit false

namespace Stuffbin

/-! ## Go strings and paths (Unix separator) -/

abbrev GoStr := List Char

/-- strings.Split with a single-character separator. -/
def splitOnChar (sep : Char) : GoStr → List GoStr
  | [] => [[]]
  | c :: rest =>
    if c = sep then [] :: splitOnChar sep rest
    else
      match splitOnChar sep rest with
      | [] => [[c]]
      | g :: gs => (c :: g) :: gs

/-- Join path components with slashes (strings.Join with a slash separator). -/
def joinComps : List GoStr → GoStr
  | [] => []
  | [c] => c
  | c :: c2 :: rest => c ++ '/' :: joinComps (c2 :: rest)

/-- The element-processing loop of Go's filepath.Clean: `out` is the stack of
    output components in reverse order, `cs` the components still to process. -/
def cleanStack (rooted : Bool) : List GoStr → List GoStr → List GoStr
  | out, [] => out.reverse
  | out, c :: cs =>
    if c = [] ∨ c = ['.'] then cleanStack rooted out cs
    else if c = ['.', '.'] then
      match out with
      | [] => if rooted then cleanStack rooted [] cs else cleanStack rooted [c] cs
      | o :: os =>
        if o = ['.', '.'] then cleanStack rooted (c :: o :: os) cs
        else cleanStack rooted os cs
    else cleanStack rooted (c :: out) cs

/-- Does the path begin with a slash? -/
def isRooted : GoStr → Bool
  | '/' :: _ => true
  | _ => false

/-- Go's filepath.Clean for the Unix separator. -/
def goClean (p : GoStr) : GoStr :=
  if p = [] then ['.']
  else if isRooted p then '/' :: joinComps (cleanStack true [] (splitOnChar '/' p))
  else if cleanStack false [] (splitOnChar '/' p) = [] then ['.']
  else joinComps (cleanStack false [] (splitOnChar '/' p))

/-- Go's filepath.Join on two elements for the Unix separator: empty elements
    before the first non-empty one are skipped, the rest are joined with a
    slash and the result is cleaned; the result is empty iff both are empty. -/
def goJoin (a b : GoStr) : GoStr :=
  if a = [] then (if b = [] then [] else goClean b)
  else if b = [] then goClean a
  else goClean (a ++ '/' :: b)

/-- strings.Replace of every occurrence of one character by another. -/
def replaceChar (old new : Char) (p : GoStr) : GoStr :=
  p.map fun c => if c = old then new else c

/-- strings.TrimPrefix. -/
def trimPref (s pre : GoStr) : GoStr :=
  if pre.isPrefixOf s then s.drop pre.length else s

/-- cleanPath from fs.go (Unix variant: the separator is a slash, so the path
    gets a slash prepended, and the volume name is always empty so the final
    strings.Replace of the volume name is the identity). -/
def cleanPath (rootPath p : GoStr) : GoStr :=
  let root := if rootPath = [] then ['/'] else rootPath
  replaceChar '\\' '/' (goJoin root (goClean ('/' :: p)))

/-! ## Bytes and the footer codec (stuff.go) -/

abbrev Bytes := List Nat

/-- lenID from stuff.go: the length of the trailing identifier. -/
def lenID : Nat := 24

/-- buildName from stuff.go: the ASCII bytes of the 8-byte tag. -/
def buildName : Bytes := [115, 116, 117, 102, 102, 98, 105, 110]

/-- ID from stuff.go. -/
structure ID where
  Name : Bytes
  BinSize : Nat
  ZipSize : Nat
deriving DecidableEq

/-- Errors used across the embedding, mirroring the distinct Go error values. -/
inductive GoErr where
  | noID
  | readAt
  | zipFormat
  | alreadyExists
  | notExist
  | statErr
  | invalidAlias
  | seekNegative
deriving DecidableEq

/-- The big-endian byte encoding of a number at a given width
    (binary.BigEndian.PutUint64 is width 8). -/
def beBytes : Nat → Nat → Bytes
  | 0, _ => []
  | k + 1, n => beBytes k (n / 256) ++ [n % 256]

/-- binary.BigEndian.Uint64 generalized to a byte list. -/
def readBE (b : Bytes) : Nat := b.foldl (fun acc x => acc * 256 + x) 0

/-- Left-pad/trim a name to the 8 bytes of a Go [8]byte array. -/
def pad8 (b : Bytes) : Bytes := b.take 8 ++ List.replicate (8 - b.length) 0

/-- GetFileID from stuff.go, on a file modelled by its bytes: fails with
    ErrNoID when the file is shorter than the 24-byte identifier or when the
    first 8 of the trailing 24 bytes differ from the tag. -/
def GetFileID (f : Bytes) : Except GoErr ID :=
  if f.length < lenID then .error .noID
  else if ((f.drop (f.length - lenID)).take 8) ≠ buildName then .error .noID
  else
    .ok ⟨(f.drop (f.length - lenID)).take 8,
         readBE (((f.drop (f.length - lenID)).drop 8).take 8),
         readBE (((f.drop (f.length - lenID)).drop 16).take 8)⟩

/-- GetFileID including the file-open step: a missing file is an ordinary
    I/O failure (os.Open / os.Stat error), distinct from ErrNoID. -/
def GetFileIDOS : Option Bytes → Except GoErr ID
  | none => .error .statErr
  | some b => GetFileID b

/-- makeID from stuff.go. -/
def makeID (name : Bytes) (binLen zipLen : Nat) : ID := ⟨name, binLen, zipLen⟩

/-- makeIDBytes from stuff.go. -/
def makeIDBytes (id : ID) : Bytes :=
  pad8 id.Name ++ beBytes 8 id.BinSize ++ beBytes 8 id.ZipSize

/-! ## Stuffing at the byte level (Stuff and copyFile from stuff.go) -/

/-- The original-size determination of copyFile: if the input already carries
    an identifier with a positive BinSize, that BinSize is used (and the copy
    is truncated to it); otherwise the input's full length. -/
def stuffOrigSize (bin : Bytes) : Nat :=
  match GetFileID bin with
  | .ok id => if 0 < id.BinSize then id.BinSize else bin.length
  | .error _ => bin.length

/-- os.File.Truncate to size n followed by a seek to n: shrinks the file or
    extends it with zero bytes. -/
def truncPad (b : Bytes) (n : Nat) : Bytes :=
  if n ≤ b.length then b.take n else b ++ List.replicate (n - b.length) 0

/-- Stuff from stuff.go at the byte level, with the archive bytes z already
    built: copy the binary (truncated per copyFile), append the archive,
    append a fresh footer recording the original size and the archive length. -/
def stuffBytes (bin z : Bytes) : Bytes :=
  let orig := stuffOrigSize bin
  truncPad bin orig ++ z ++ makeIDBytes (makeID buildName orig z.length)

/-- The two sizes Stuff returns. -/
def stuffSizes (bin z : Bytes) : Nat × Nat := (stuffOrigSize bin, z.length)

/-! ## Basic lemmas -/

theorem readBE_append_one (a : Bytes) (x : Nat) :
    readBE (a ++ [x]) = readBE a * 256 + x := by
  simp [readBE, List.foldl_append]

theorem readBE_beBytes (k n : Nat) : readBE (beBytes k n) = n % 256 ^ k := by
  induction k generalizing n with
  | zero => simp [beBytes, readBE, Nat.mod_one]
  | succ k ih =>
    rw [beBytes, readBE_append_one, ih, pow_succ, Nat.mul_comm (256 ^ k) 256, Nat.mod_mul]
    omega

theorem beBytes_length (k n : Nat) : (beBytes k n).length = k := by
  induction k generalizing n with
  | zero => simp [beBytes]
  | succ k ih => simp [beBytes, ih]

theorem makeIDBytes_length (id : ID) : (makeIDBytes id).length = lenID := by
  simp [makeIDBytes, pad8, beBytes_length, lenID]
  omega

theorem makeIDBytes_buildName (o zl : Nat) :
    makeIDBytes (makeID buildName o zl) = buildName ++ (beBytes 8 o ++ beBytes 8 zl) := by
  have hp : pad8 buildName = buildName := by decide
  simp [makeIDBytes, makeID, hp]

/-- Decoding the trailing 24 bytes of any file that ends in a well-tagged
    24-byte footer block. -/
theorem getFileID_append_footer (a f : Bytes) (hf : f.length = lenID)
    (htag : f.take 8 = buildName) :
    GetFileID (a ++ f) =
      .ok ⟨buildName, readBE ((f.drop 8).take 8), readBE ((f.drop 16).take 8)⟩ := by
  have hl : (a ++ f).length = a.length + lenID := by simp [hf]
  have hd : (a ++ f).drop ((a ++ f).length - lenID) = f := by
    rw [hl, Nat.add_sub_cancel]
    exact List.drop_left a f
  rw [GetFileID, if_neg (by omega), hd, htag, if_neg (by simp)]

/-- Decoding the footer appended by Stuff recovers the recorded sizes, as long
    as both fit in an unsigned 64-bit value. -/
theorem getFileID_stuffed (a : Bytes) (o zl : Nat)
    (ho : o < 2 ^ 64) (hz : zl < 2 ^ 64) :
    GetFileID (a ++ makeIDBytes (makeID buildName o zl)) = .ok (makeID buildName o zl) := by
  have h256 : (256 : Nat) ^ 8 = 2 ^ 64 := by norm_num
  have htag : (makeIDBytes (makeID buildName o zl)).take 8 = buildName := by
    rw [makeIDBytes_buildName]
    exact List.take_left' (by decide)
  rw [getFileID_append_footer a _ (makeIDBytes_length _) htag]
  have hdrop8 : (makeIDBytes (makeID buildName o zl)).drop 8 = beBytes 8 o ++ beBytes 8 zl := by
    rw [makeIDBytes_buildName]
    exact List.drop_left' (by decide)
  have hdrop16 : (makeIDBytes (makeID buildName o zl)).drop 16 = beBytes 8 zl := by
    rw [makeIDBytes_buildName, ← List.append_assoc]
    exact List.drop_left' (by simp [beBytes_length]; decide)
  rw [hdrop8, hdrop16, List.take_left' (beBytes_length 8 o),
      List.take_of_length_le (le_of_eq (beBytes_length 8 zl)),
      readBE_beBytes, readBE_beBytes, h256, Nat.mod_eq_of_lt ho, Nat.mod_eq_of_lt hz]
  rfl

/-! ## Claim C3: malformed-footer safety of GetFileID -/

/-- C3: footer decoding on a file shorter than 24 bytes fails with NoID; on a
    file of at least 24 bytes whose trailing block does not begin with the
    8-byte tag it also fails with NoID; it is a total function (in particular
    it returns a value, never panicking, for every byte length up to 30); and
    a file-open failure is reported as an I/O error distinct from NoID. -/
theorem getFileID_malformed_safe (f : Bytes) :
    (f.length < lenID → GetFileID f = .error .noID) ∧
    (lenID ≤ f.length → (f.drop (f.length - lenID)).take 8 ≠ buildName →
      GetFileID f = .error .noID) ∧
    (f.length ≤ 30 → GetFileID f = .error .noID ∨ ∃ id, GetFileID f = .ok id) ∧
    GetFileIDOS none ≠ .error .noID := by
  refine ⟨fun h => by rw [GetFileID, if_pos h], fun h hne => ?_, fun _ => ?_, by simp [GetFileIDOS]⟩
  · rw [GetFileID, if_neg (by omega), if_pos hne]
  · by_cases hl : f.length < lenID
    · exact .inl (by rw [GetFileID, if_pos hl])
    · by_cases ht : (f.drop (f.length - lenID)).take 8 = buildName
      · exact .inr ⟨_, by rw [GetFileID, if_neg hl, if_neg (by simp [ht])]⟩
      · exact .inl (by rw [GetFileID, if_neg hl, if_pos ht])

/-- Witness for C3 at concrete inputs of lengths 0, 24 and 30. -/
theorem getFileID_malformed_safe_witness :
    GetFileID [] = .error .noID ∧
    GetFileID (List.replicate 24 0) = .error .noID ∧
    (GetFileID (List.replicate 30 7) = .error .noID ∨
      ∃ id, GetFileID (List.replicate 30 7) = .ok id) ∧
    GetFileIDOS none ≠ .error .noID :=
  ⟨(getFileID_malformed_safe []).1 (by decide),
   (getFileID_malformed_safe (List.replicate 24 0)).2.1 (by decide) (by decide),
   (getFileID_malformed_safe (List.replicate 30 7)).2.2.1 (by decide),
   (getFileID_malformed_safe []).2.2.2⟩

/-! ## Claim C2: restuffing and the recorded original size -/

/-- C2 counterexample: for the empty binary, stuffing twice does not preserve
    the recorded original size: after the second stuff the footer records 24
    (the length of the first stuffed output) although the binary's size before
    the first stuff was 0. -/
theorem restuff_counterexample :
    GetFileID (stuffBytes (stuffBytes [] []) []) = .ok (makeID buildName lenID 0) ∧
    ([] : Bytes).length = 0 ∧ lenID ≠ 0 := by
  refine ⟨by rfl, rfl, by decide⟩

/-- C2 amended: for every nonempty binary that is not already stuffed (its
    size determination yields its own length), stuffing with archive z1 and
    restuffing with archive z2 keeps the recorded original size equal to the
    binary's length, and each output's total size is the recorded original
    size plus the archive length plus 24. -/
theorem restuff_preserves_origSize (bin z1 z2 : Bytes)
    (hne : bin ≠ []) (hun : stuffOrigSize bin = bin.length)
    (hb : bin.length < 2 ^ 64) (h1 : z1.length < 2 ^ 64) (h2 : z2.length < 2 ^ 64) :
    GetFileID (stuffBytes bin z1) = .ok (makeID buildName bin.length z1.length) ∧
    GetFileID (stuffBytes (stuffBytes bin z1) z2) =
      .ok (makeID buildName bin.length z2.length) ∧
    (stuffBytes bin z1).length = bin.length + z1.length + lenID ∧
    (stuffBytes (stuffBytes bin z1) z2).length = bin.length + z2.length + lenID := by
  have htp : truncPad bin (stuffOrigSize bin) = bin := by
    rw [hun, truncPad, if_pos le_rfl, List.take_length]
  have hg1 : GetFileID (stuffBytes bin z1) = .ok (makeID buildName bin.length z1.length) := by
    rw [stuffBytes, htp, hun]
    exact getFileID_stuffed _ _ _ hb h1
  have hlen1 : (stuffBytes bin z1).length = bin.length + z1.length + lenID := by
    rw [stuffBytes, htp, hun]
    simp [makeIDBytes_length]
    omega
  have horig1 : stuffOrigSize (stuffBytes bin z1) = bin.length := by
    rw [stuffOrigSize, hg1]
    simp [makeID, List.length_pos.mpr hne]
  have htp1 : truncPad (stuffBytes bin z1) (stuffOrigSize (stuffBytes bin z1)) = bin := by
    rw [horig1, truncPad, if_pos (by rw [hlen1]; omega), stuffBytes, htp, hun,
        List.append_assoc, List.take_left]
  have hg2 : GetFileID (stuffBytes (stuffBytes bin z1) z2) =
      .ok (makeID buildName bin.length z2.length) := by
    rw [stuffBytes, htp1, horig1]
    exact getFileID_stuffed _ _ _ hb h2
  refine ⟨hg1, hg2, hlen1, ?_⟩
  rw [stuffBytes, htp1, horig1]
  simp [makeIDBytes_length]
  omega

/-- Witness for the amended C2 at a concrete one-byte binary. -/
theorem restuff_preserves_origSize_witness :
    GetFileID (stuffBytes [9] [1, 2]) = .ok (makeID buildName 1 2) ∧
    GetFileID (stuffBytes (stuffBytes [9] [1, 2]) [3]) = .ok (makeID buildName 1 1) ∧
    (stuffBytes [9] [1, 2]).length = 1 + 2 + lenID ∧
    (stuffBytes (stuffBytes [9] [1, 2]) [3]).length = 1 + 1 + lenID :=
  restuff_preserves_origSize [9] [1, 2] [3] (by decide) (by decide)
    (by norm_num) (by norm_num) (by norm_num)

/-! ## The in-memory FileSystem (fs.go) -/

/-- Shorthand to write Go string literals. -/
def gs (s : String) : GoStr := s.toList

/-- The part of os.FileInfo the filesystem uses: Size() and IsDir(). -/
structure FInfo where
  size : Nat
  isDir : Bool
deriving DecidableEq

/-- File from fs.go: stored path, os.FileInfo, content bytes, and the position
    of the bytes.Reader rd over the content. -/
structure File where
  path : GoStr
  info : FInfo
  b : Bytes
  pos : Nat
deriving DecidableEq

instance : Inhabited File := ⟨⟨[], ⟨0, false⟩, [], 0⟩⟩

/-- NewFile from fs.go: copies the content into a fresh buffer and puts a new
    reader (position 0) over it; on the value level the copy is the identity
    (aliasing is modelled separately by the heap embedding below). -/
def NewFile (path : GoStr) (info : FInfo) (b : Bytes) : File :=
  ⟨path, info, b, 0⟩

/-- memFS from fs.go: the Go map is modelled as an association list with
    unique keys (first match wins), plus the running size field. -/
structure MemFS where
  files : List (GoStr × File)
  size : Nat
deriving DecidableEq

/-- Go map read m[k]. -/
def mapGet : List (GoStr × File) → GoStr → Option File
  | [], _ => none
  | (k2, v) :: t, k => if k2 = k then some v else mapGet t k

/-- Go map assignment m[k] = v. -/
def mapSet : List (GoStr × File) → GoStr → File → List (GoStr × File)
  | [], k, v => [(k, v)]
  | (k2, v2) :: t, k, v => if k2 = k then (k, v) :: t else (k2, v2) :: mapSet t k v

/-- Go map deletion delete(m, k). -/
def mapDel : List (GoStr × File) → GoStr → List (GoStr × File)
  | [], _ => []
  | (k2, v2) :: t, k => if k2 = k then t else (k2, v2) :: mapDel t k

/-- NewFS from fs.go. -/
def emptyFS : MemFS := ⟨[], 0⟩

/-- memFS.Add from fs.go: the duplicate check uses the file's stored path
    exactly as given, while the insertion key is the cleaned path; the size
    field grows by the size reported by the file's FileInfo. -/
def memAdd (fs : MemFS) (f : File) : Except GoErr MemFS :=
  if (mapGet fs.files f.path).isSome then .error .alreadyExists
  else .ok ⟨mapSet fs.files (cleanPath [] f.path) f, fs.size + f.info.size⟩

/-- memFS.List from fs.go (map iteration order is not significant). -/
def memList (fs : MemFS) : List GoStr := fs.files.map Prod.fst

/-- memFS.Len from fs.go. -/
def memLen (fs : MemFS) : Nat := fs.files.length

/-- memFS.Size from fs.go. -/
def memSize (fs : MemFS) : Nat := fs.size

/-- memFS.Get from fs.go: looks up the cleaned path and returns a fresh copy
    of the stored File via NewFile. -/
def memGet (fs : MemFS) (p : GoStr) : Except GoErr File :=
  match mapGet fs.files (cleanPath ['/'] p) with
  | none => .error .notExist
  | some f => .ok (NewFile f.path f.info f.b)

/-- File.ReadBytes from fs.go: returns a copy of the content bytes. -/
def ReadBytes (f : File) : Bytes := f.b

/-- memFS.Read from fs.go. -/
def memRead (fs : MemFS) (p : GoStr) : Except GoErr Bytes :=
  match memGet fs p with
  | .error e => .error e
  | .ok f => .ok (ReadBytes f)

/-- memFS.Delete from fs.go: removes the entry but, exactly as the source is
    written, does not touch the size field. -/
def memDelete (fs : MemFS) (p : GoStr) : Except GoErr MemFS :=
  if (mapGet fs.files (cleanPath ['/'] p)).isSome then
    .ok ⟨mapDel fs.files (cleanPath ['/'] p), fs.size⟩
  else .error .notExist

/-- One iteration of the MergeFS loop from fs.go: get the entry from the
    source, delete the destination entry when the destination lookup succeeds,
    then Add with the returned error discarded. -/
def mergeStep (src dest : MemFS) (p : GoStr) : Except GoErr MemFS :=
  match memGet src p with
  | .error e => .error e
  | .ok f =>
    match memGet dest p with
    | .ok _ =>
      match memDelete dest p with
      | .error e => .error e
      | .ok d2 =>
        .ok (match memAdd d2 f with
             | .ok d3 => d3
             | .error _ => d2)
    | .error _ =>
      .ok (match memAdd dest f with
           | .ok d3 => d3
           | .error _ => dest)

/-- MergeFS from fs.go. -/
def MergeFS (dest src : MemFS) : Except GoErr MemFS :=
  (memList src).foldlM (fun d p => mergeStep src d p) dest

/-- The exact sum of the sizes of the entries currently present. -/
def sumSizes (l : List (GoStr × File)) : Nat := (l.map fun kv => kv.2.info.size).sum

/-- Well-formed filesystem: unique keys, every entry is stored under the
    cleaned form of its own path, and keys are fixed points of cleaning.
    Every filesystem assembled through memAdd from emptyFS satisfies this. -/
def wfFS (fs : MemFS) : Prop :=
  (fs.files.map Prod.fst).Nodup ∧
  ∀ kv ∈ fs.files, cleanPath [] kv.2.path = kv.1 ∧ cleanPath [] kv.1 = kv.1

/-! ## Claim C4: the size field after Delete (code bug) -/

/-- C4: the code keeps the size field unchanged on Delete. Concretely: add one
    file of size 1, delete it; Size() still reports 1 while the exact sum of
    the sizes of the entries present is 0 — Delete did not decrease Size() by
    the removed entry's size. -/
theorem delete_size_not_updated :
    memAdd emptyFS (NewFile (gs "/a") ⟨1, false⟩ [97]) =
      .ok ⟨[(gs "/a", NewFile (gs "/a") ⟨1, false⟩ [97])], 1⟩ ∧
    memDelete ⟨[(gs "/a", NewFile (gs "/a") ⟨1, false⟩ [97])], 1⟩ (gs "/a") =
      .ok ⟨[], 1⟩ ∧
    memSize ⟨[], 1⟩ = 1 ∧ sumSizes ([] : List (GoStr × File)) = 0 :=
  ⟨rfl, rfl, rfl, rfl⟩

/-! ## Claim C7: Add and duplicate detection -/

/-- C7 counterexample: the filesystem already holds the key "/foo.txt"; adding
    an entry whose stored path is "foo.txt" — whose normalized path
    "/foo.txt" is already a key — does not fail with AlreadyExists: it
    succeeds, silently replaces the entry, and still grows the size field. -/
theorem add_duplicate_counterexample :
    memAdd emptyFS (NewFile (gs "/foo.txt") ⟨1, false⟩ [97]) =
      .ok ⟨[(gs "/foo.txt", NewFile (gs "/foo.txt") ⟨1, false⟩ [97])], 1⟩ ∧
    cleanPath [] (gs "foo.txt") = gs "/foo.txt" ∧
    memAdd ⟨[(gs "/foo.txt", NewFile (gs "/foo.txt") ⟨1, false⟩ [97])], 1⟩
        (NewFile (gs "foo.txt") ⟨1, false⟩ [98]) =
      .ok ⟨[(gs "/foo.txt", NewFile (gs "foo.txt") ⟨1, false⟩ [98])], 2⟩ :=
  ⟨rfl, rfl, rfl⟩

/-! ## Association-list lemmas for the Go map model -/

theorem cleanPath_nilRoot (p : GoStr) : cleanPath [] p = cleanPath ['/'] p := rfl

theorem mapGet_isSome_iff_mem (l : List (GoStr × File)) (k : GoStr) :
    (mapGet l k).isSome ↔ k ∈ l.map Prod.fst := by
  induction l with
  | nil => simp [mapGet]
  | cons kv t ih =>
    obtain ⟨k2, v⟩ := kv
    by_cases h : k2 = k
    · simp [mapGet, h]
    · simp [mapGet, h, ih, Ne.symm h]

theorem mapGet_eq_none_iff (l : List (GoStr × File)) (k : GoStr) :
    mapGet l k = none ↔ k ∉ l.map Prod.fst := by
  rw [← mapGet_isSome_iff_mem, Option.isSome_iff_exists]
  cases mapGet l k <;> simp

theorem mapGet_eq_some_mem {l : List (GoStr × File)} {k : GoStr} {v : File}
    (h : mapGet l k = some v) : (k, v) ∈ l := by
  induction l with
  | nil => simp [mapGet] at h
  | cons kv t ih =>
    obtain ⟨k2, v2⟩ := kv
    by_cases he : k2 = k
    · rw [mapGet, if_pos he] at h
      subst he
      obtain rfl : v2 = v := by injection h
      exact List.mem_cons_self _ _
    · rw [mapGet, if_neg he] at h
      exact List.mem_cons_of_mem _ (ih h)

theorem mapGet_of_mem_nodup {l : List (GoStr × File)} {k : GoStr} {v : File}
    (h : (k, v) ∈ l) (hnd : (l.map Prod.fst).Nodup) : mapGet l k = some v := by
  induction l with
  | nil => simp at h
  | cons kv t ih =>
    obtain ⟨k2, v2⟩ := kv
    rcases List.mem_cons.mp h with heq | ht
    · cases heq
      rw [mapGet, if_pos rfl]
    · rw [List.map_cons] at hnd
      have hk2 : k2 ≠ k := by
        rintro rfl
        exact (List.nodup_cons.mp hnd).1 (List.mem_map.mpr ⟨(k2, v), ht, rfl⟩)
      rw [mapGet, if_neg hk2]
      exact ih ht (List.nodup_cons.mp hnd).2

theorem mapGet_append (a b : List (GoStr × File)) (k : GoStr) :
    mapGet (a ++ b) k = match mapGet a k with
      | some v => some v
      | none => mapGet b k := by
  induction a with
  | nil => simp [mapGet]
  | cons kv t ih =>
    obtain ⟨k2, v2⟩ := kv
    by_cases h : k2 = k
    · simp [mapGet, h]
    · simp [mapGet, h, ih]

theorem mapSet_eq_append (l : List (GoStr × File)) (k : GoStr) (v : File)
    (h : mapGet l k = none) : mapSet l k v = l ++ [(k, v)] := by
  induction l with
  | nil => rfl
  | cons kv t ih =>
    obtain ⟨k2, v2⟩ := kv
    by_cases he : k2 = k
    · rw [mapGet, if_pos he] at h
      exact absurd h (by simp)
    · rw [mapGet, if_neg he] at h
      rw [mapSet, if_neg he, ih h]
      rfl

theorem mapDel_sublist (l : List (GoStr × File)) (k : GoStr) :
    List.Sublist (mapDel l k) l := by
  induction l with
  | nil => exact List.Sublist.refl _
  | cons kv t ih =>
    obtain ⟨k2, v2⟩ := kv
    by_cases h : k2 = k
    · rw [mapDel, if_pos h]
      exact List.sublist_cons_self _ _
    · rw [mapDel, if_neg h]
      exact ih.cons₂ _

theorem mapGet_mapDel_self (l : List (GoStr × File)) (k : GoStr)
    (hnd : (l.map Prod.fst).Nodup) : mapGet (mapDel l k) k = none := by
  induction l with
  | nil => rfl
  | cons kv t ih =>
    obtain ⟨k2, v2⟩ := kv
    rw [List.map_cons] at hnd
    by_cases h : k2 = k
    · rw [mapDel, if_pos h, mapGet_eq_none_iff]
      subst h
      exact (List.nodup_cons.mp hnd).1
    · rw [mapDel, if_neg h, mapGet, if_neg h]
      exact ih (List.nodup_cons.mp hnd).2

theorem mapGet_mapDel_ne (l : List (GoStr × File)) (k q : GoStr) (h : q ≠ k) :
    mapGet (mapDel l k) q = mapGet l q := by
  induction l with
  | nil => rfl
  | cons kv t ih =>
    obtain ⟨k2, v2⟩ := kv
    by_cases he : k2 = k
    · subst he
      rw [mapDel, if_pos rfl, mapGet, if_neg fun hq => h hq.symm]
    · rw [mapDel, if_neg he, mapGet, mapGet]
      by_cases hq : k2 = q
      · rw [if_pos hq, if_pos hq]
      · rw [if_neg hq, if_neg hq, ih]

theorem mapGet_mapSet_self (l : List (GoStr × File)) (k : GoStr) (v : File) :
    mapGet (mapSet l k v) k = some v := by
  induction l with
  | nil => rw [mapSet, mapGet, if_pos rfl]
  | cons kv t ih =>
    obtain ⟨k2, v2⟩ := kv
    by_cases h : k2 = k
    · rw [mapSet, if_pos h, mapGet, if_pos rfl]
    · rw [mapSet, if_neg h, mapGet, if_neg h, ih]

theorem mapGet_append_single_ne (a : List (GoStr × File)) (p q : GoStr) (f : File)
    (h : q ≠ p) : mapGet (a ++ [(p, f)]) q = mapGet a q := by
  cases hv : mapGet a q with
  | some v => rw [mapGet_append, hv]
  | none =>
    rw [mapGet_append, hv]
    show mapGet [(p, f)] q = none
    rw [mapGet, if_neg fun he => h he.symm]
    rfl

theorem mapGet_append_single_self (a : List (GoStr × File)) (p : GoStr) (f : File)
    (h : mapGet a p = none) : mapGet (a ++ [(p, f)]) p = some f := by
  rw [mapGet_append, h]
  show mapGet [(p, f)] p = some f
  rw [mapGet, if_pos rfl]

theorem keys_clean_of_wf {fs : MemFS} (hwf : wfFS fs) {k : GoStr} {v : File}
    (h : mapGet fs.files k = some v) : cleanPath [] k = k :=
  (hwf.2 _ (mapGet_eq_some_mem h)).2

theorem wfFS_mapDel (d : MemFS) (hwf : wfFS d) (p : GoStr) (n : Nat) :
    wfFS ⟨mapDel d.files p, n⟩ := by
  refine ⟨hwf.1.sublist ((mapDel_sublist d.files p).map Prod.fst),
    fun kv hkv => hwf.2 kv ((mapDel_sublist d.files p).subset hkv)⟩

theorem mapGet_none_of_unclean (d : MemFS) (hwf : wfFS d) (x p : GoStr)
    (hx : cleanPath [] x = p) (hne : x ≠ p) : mapGet d.files x = none := by
  cases hmx : mapGet d.files x with
  | none => rfl
  | some v => exact absurd ((keys_clean_of_wf hwf hmx).symm.trans hx) hne

/-- Adding a file whose cleaned path is a key absent from a well-formed
    filesystem appends the entry and preserves well-formedness. -/
theorem memAdd_fresh (d : MemFS) (f : File) (p : GoStr)
    (hwf : wfFS d) (hfp : cleanPath [] f.path = p) (hpp : cleanPath [] p = p)
    (hp : mapGet d.files p = none) :
    memAdd d f = .ok ⟨d.files ++ [(p, f)], d.size + f.info.size⟩ ∧
    wfFS ⟨d.files ++ [(p, f)], d.size + f.info.size⟩ := by
  have hraw : mapGet d.files f.path = none := by
    by_cases he : f.path = p
    · rw [he]; exact hp
    · exact mapGet_none_of_unclean d hwf f.path p hfp he
  refine ⟨by rw [memAdd, if_neg (by rw [hraw]; simp), hfp, mapSet_eq_append _ _ _ hp], ?_, ?_⟩
  · rw [List.map_append]
    refine List.Nodup.append hwf.1 (List.nodup_singleton p) ?_
    intro a ha hb
    simp only [List.map_cons, List.map_nil, List.mem_singleton] at hb
    subst hb
    exact (mapGet_eq_none_iff d.files a).mp hp ha
  · intro kv hkv
    rcases List.mem_append.mp hkv with hin | hone
    · exact hwf.2 kv hin
    · rw [List.mem_singleton] at hone
      subst hone
      exact ⟨hfp, hpp⟩

/-- One merge iteration installs a copy of the source entry at its key and
    leaves every other key of the destination untouched. -/
theorem mergeStep_ok (src d : MemFS) (p : GoStr) (fsrc : File)
    (hwfd : wfFS d)
    (hget : mapGet src.files p = some fsrc)
    (hfp : cleanPath [] fsrc.path = p)
    (hpp : cleanPath [] p = p) :
    ∃ d2, mergeStep src d p = .ok d2 ∧
      mapGet d2.files p = some (NewFile fsrc.path fsrc.info fsrc.b) ∧
      (∀ q, q ≠ p → mapGet d2.files q = mapGet d.files q) ∧
      wfFS d2 := by
  have hsg : memGet src p = .ok (NewFile fsrc.path fsrc.info fsrc.b) := by
    rw [memGet, ← cleanPath_nilRoot, hpp, hget]
  cases hd : mapGet d.files p with
  | some fd =>
    have hdg : memGet d p = .ok (NewFile fd.path fd.info fd.b) := by
      rw [memGet, ← cleanPath_nilRoot, hpp, hd]
    have hdel : memDelete d p = .ok ⟨mapDel d.files p, d.size⟩ := by
      rw [memDelete, ← cleanPath_nilRoot, hpp, if_pos (by rw [hd]; rfl)]
    have hwf1 : wfFS ⟨mapDel d.files p, d.size⟩ := wfFS_mapDel d hwfd p d.size
    have hp1 : mapGet (mapDel d.files p) p = none := mapGet_mapDel_self d.files p hwfd.1
    have hadd := memAdd_fresh ⟨mapDel d.files p, d.size⟩
      (NewFile fsrc.path fsrc.info fsrc.b) p hwf1 hfp hpp hp1
    refine ⟨_, ?_, ?_, ?_, hadd.2⟩
    · rw [mergeStep, hsg, hdg, hdel]
      simp only [hadd.1]
    · exact mapGet_append_single_self _ _ _ hp1
    · intro q hq
      rw [mapGet_append_single_ne _ _ _ _ hq, mapGet_mapDel_ne _ _ _ hq]
  | none =>
    have hdg : memGet d p = .error .notExist := by
      rw [memGet, ← cleanPath_nilRoot, hpp, hd]
    have hadd := memAdd_fresh d (NewFile fsrc.path fsrc.info fsrc.b) p hwfd hfp hpp hd
    refine ⟨_, ?_, ?_, ?_, hadd.2⟩
    · rw [mergeStep, hsg, hdg]
      simp only [hadd.1]
    · exact mapGet_append_single_self _ _ _ hd
    · intro q hq
      rw [mapGet_append_single_ne _ _ _ _ hq]

instance wfFS_decidable (fs : MemFS) : Decidable (wfFS fs) :=
  decidable_of_iff ((fs.files.map Prod.fst).Nodup ∧
    ∀ kv ∈ fs.files, cleanPath [] kv.2.path = kv.1 ∧ cleanPath [] kv.1 = kv.1) Iff.rfl

/-- The MergeFS fold over any duplicate-free list of source keys. -/
theorem mergeFold (src : MemFS) (ps : List GoStr) :
    ∀ d : MemFS, wfFS d →
      (∀ p ∈ ps, ∃ f, mapGet src.files p = some f ∧
        cleanPath [] f.path = p ∧ cleanPath [] p = p) →
      ps.Nodup →
      ∃ d2, List.foldlM (fun d p => mergeStep src d p) d ps = .ok d2 ∧ wfFS d2 ∧
        (∀ p ∈ ps, mapGet d2.files p =
          Option.map (fun f => NewFile f.path f.info f.b) (mapGet src.files p)) ∧
        (∀ q, q ∉ ps → mapGet d2.files q = mapGet d.files q) := by
  induction ps with
  | nil =>
    intro d hwf _ _
    exact ⟨d, rfl, hwf, fun p hp => absurd hp (List.not_mem_nil p), fun q _ => rfl⟩
  | cons p ps ih =>
    intro d hwf hkeys hnd
    obtain ⟨f, hget, hfp, hpp⟩ := hkeys p (List.mem_cons_self p ps)
    obtain ⟨d1, hstep, hat, hother, hwf1⟩ := mergeStep_ok src d p f hwf hget hfp hpp
    obtain ⟨d2, hfold, hwf2, hin, hout⟩ :=
      ih d1 hwf1 (fun q hq => hkeys q (List.mem_cons_of_mem p hq)) (List.nodup_cons.mp hnd).2
    refine ⟨d2, ?_, hwf2, ?_, ?_⟩
    · rw [List.foldlM_cons, hstep]
      exact hfold
    · intro q hq
      rcases List.mem_cons.mp hq with rfl | hq2
      · rw [hout q (List.nodup_cons.mp hnd).1, hat, hget]
        rfl
      · exact hin q hq2
    · intro q hq
      rw [hout q fun hq2 => hq (List.mem_cons_of_mem p hq2),
          hother q fun he => hq (he ▸ List.mem_cons_self p ps)]

/-! ## Claim C6: merge overwrite semantics -/

/-- C6: for well-formed destination and source filesystems, MergeFS succeeds
    and afterwards every path of the source reads back with the source's
    content (the source wins on conflicts), every path unique to the
    destination keeps its content, and every source path is present. -/
theorem mergeFS_source_wins (dest src : MemFS) (hd : wfFS dest) (hs : wfFS src) :
    ∃ d2, MergeFS dest src = .ok d2 ∧
      (∀ p ∈ memList src, memRead d2 p = memRead src p) ∧
      (∀ p ∈ memList dest, p ∉ memList src → memRead d2 p = memRead dest p) ∧
      (∀ p ∈ memList src, p ∈ memList d2) := by
  have hkeys : ∀ p ∈ memList src, ∃ f, mapGet src.files p = some f ∧
      cleanPath [] f.path = p ∧ cleanPath [] p = p := by
    intro p hp
    obtain ⟨kv, hkv, hfst⟩ := List.mem_map.mp hp
    obtain ⟨k, v⟩ := kv
    cases hfst
    exact ⟨v, mapGet_of_mem_nodup hkv hs.1, (hs.2 _ hkv).1, (hs.2 _ hkv).2⟩
  obtain ⟨d2, hfold, hwf2, hin, hout⟩ := mergeFold src (memList src) dest hd hkeys hs.1
  refine ⟨d2, hfold, ?_, ?_, ?_⟩
  · intro p hp
    obtain ⟨f, hget, hfp, hpp⟩ := hkeys p hp
    rw [memRead, memRead, memGet, memGet, ← cleanPath_nilRoot, hpp, hget,
        hin p hp, hget]
    rfl
  · intro p hp hnp
    have hpp : cleanPath [] p = p := by
      obtain ⟨kv, hkv, hfst⟩ := List.mem_map.mp hp
      obtain ⟨k, v⟩ := kv
      cases hfst
      exact (hd.2 _ hkv).2
    rw [memRead, memRead, memGet, memGet, ← cleanPath_nilRoot, hpp, hout p hnp]
  · intro p hp
    obtain ⟨f, hget, _, _⟩ := hkeys p hp
    have : mapGet d2.files p = some (NewFile f.path f.info f.b) := by
      rw [hin p hp, hget]
      rfl
    exact (mapGet_isSome_iff_mem d2.files p).mp (by rw [this]; rfl)

/-- Witness for C6: destination holds /foo.txt = "a"; source holds
    /foo.txt = "b" and /bar.txt = "c". -/
theorem mergeFS_source_wins_witness :
    ∃ d2,
      MergeFS ⟨[(gs "/foo.txt", NewFile (gs "/foo.txt") ⟨1, false⟩ [97])], 1⟩
          ⟨[(gs "/foo.txt", NewFile (gs "/foo.txt") ⟨1, false⟩ [98]),
            (gs "/bar.txt", NewFile (gs "/bar.txt") ⟨1, false⟩ [99])], 2⟩ = .ok d2 ∧
      (∀ p ∈ memList ⟨[(gs "/foo.txt", NewFile (gs "/foo.txt") ⟨1, false⟩ [98]),
            (gs "/bar.txt", NewFile (gs "/bar.txt") ⟨1, false⟩ [99])], 2⟩,
        memRead d2 p = memRead ⟨[(gs "/foo.txt", NewFile (gs "/foo.txt") ⟨1, false⟩ [98]),
            (gs "/bar.txt", NewFile (gs "/bar.txt") ⟨1, false⟩ [99])], 2⟩ p) ∧
      (∀ p ∈ memList ⟨[(gs "/foo.txt", NewFile (gs "/foo.txt") ⟨1, false⟩ [97])], 1⟩,
        p ∉ memList ⟨[(gs "/foo.txt", NewFile (gs "/foo.txt") ⟨1, false⟩ [98]),
            (gs "/bar.txt", NewFile (gs "/bar.txt") ⟨1, false⟩ [99])], 2⟩ →
        memRead d2 p =
          memRead ⟨[(gs "/foo.txt", NewFile (gs "/foo.txt") ⟨1, false⟩ [97])], 1⟩ p) ∧
      (∀ p ∈ memList ⟨[(gs "/foo.txt", NewFile (gs "/foo.txt") ⟨1, false⟩ [98]),
            (gs "/bar.txt", NewFile (gs "/bar.txt") ⟨1, false⟩ [99])], 2⟩,
        p ∈ memList d2) :=
  mergeFS_source_wins _ _ (by decide) (by decide)

/-! ## Claim C7 (amended theorem) -/

/-- C7 amended: Add rejects a duplicate based on the entry's stored path
    exactly as given, not its normalized form: it fails with AlreadyExists
    when the raw path is a key; when the normalized path is absent from a
    well-formed filesystem it appends the entry under the normalized path and
    grows the size field by the entry's reported size; and whenever the raw
    path is absent it succeeds — even if the normalized path is present, in
    which case the existing entry is silently replaced while the size field
    still grows. -/
theorem memAdd_amended (fs : MemFS) (f : File) (hwf : wfFS fs) :
    ((mapGet fs.files f.path).isSome → memAdd fs f = .error .alreadyExists) ∧
    (mapGet fs.files (cleanPath [] f.path) = none →
      memAdd fs f =
        .ok ⟨fs.files ++ [(cleanPath [] f.path, f)], fs.size + f.info.size⟩) ∧
    (mapGet fs.files f.path = none →
      memAdd fs f = .ok ⟨mapSet fs.files (cleanPath [] f.path) f, fs.size + f.info.size⟩ ∧
      mapGet (mapSet fs.files (cleanPath [] f.path) f) (cleanPath [] f.path) = some f) := by
  refine ⟨fun h => by rw [memAdd, if_pos h], fun h => ?_, fun h => ?_⟩
  · have hraw : mapGet fs.files f.path = none := by
      cases hr : mapGet fs.files f.path with
      | none => rfl
      | some v =>
        rw [keys_clean_of_wf hwf hr, hr] at h
        cases h
    rw [memAdd, if_neg (by rw [hraw]; simp), mapSet_eq_append _ _ _ h]
  · exact ⟨by rw [memAdd, if_neg (by rw [h]; simp)], mapGet_mapSet_self _ _ _⟩

/-- Witness for the amended C7: a fresh path inserts under its normalized
    key and bumps the size. -/
theorem memAdd_amended_witness :
    memAdd ⟨[(gs "/foo.txt", NewFile (gs "/foo.txt") ⟨1, false⟩ [97])], 1⟩
        (NewFile (gs "bar.txt") ⟨2, false⟩ [98, 99]) =
      .ok ⟨[(gs "/foo.txt", NewFile (gs "/foo.txt") ⟨1, false⟩ [97]),
            (gs "/bar.txt", NewFile (gs "bar.txt") ⟨2, false⟩ [98, 99])], 3⟩ :=
  (memAdd_amended ⟨[(gs "/foo.txt", NewFile (gs "/foo.txt") ⟨1, false⟩ [97])], 1⟩
    (NewFile (gs "bar.txt") ⟨2, false⟩ [98, 99]) (by decide)).2.1 (by decide)

/-! ## The File reader (fs.go: Close, Read, Seek over the bytes.Reader rd) -/

/-- File.Seek from fs.go, which is bytes.Reader.Seek: whence 0 is absolute,
    1 relative to the position, 2 relative to the end; a negative resulting
    position is an error, anything else updates the position. -/
def fileSeek (f : File) (offset : Int) (whence : Nat) : Except GoErr (File × Int) :=
  let abs : Int :=
    if whence = 0 then offset
    else if whence = 1 then (f.pos : Int) + offset
    else (f.b.length : Int) + offset
  if abs < 0 then .error .seekNegative
  else .ok ({ f with pos := abs.toNat }, abs)

/-- File.Close from fs.go: seeks the reader back to 0 and returns the seek
    error; the handle is not invalidated. -/
def fileClose (f : File) : Except GoErr File :=
  match fileSeek f 0 0 with
  | .error e => .error e
  | .ok (f2, _) => .ok f2

/-- File.Read from fs.go, which is bytes.Reader.Read with a caller buffer of
    length n: returns the updated file, the bytes read, and whether io.EOF
    was reported. -/
def fileRead (f : File) (n : Nat) : File × Bytes × Bool :=
  if f.b.length ≤ f.pos then (f, [], true)
  else
    ({ f with pos := f.pos + ((f.b.drop f.pos).take n).length },
     (f.b.drop f.pos).take n, false)

/-! ## Claim C10: Close resets the reader -/

/-- C10: Close always succeeds and merely resets the read position to 0 —
    the closed handle equals a freshly constructed File over the same
    content, so subsequent reads yield the content from the beginning. -/
theorem close_resets_reader (f : File) :
    fileClose f = .ok (NewFile f.path f.info f.b) ∧
    (∀ n, f.b ≠ [] → (fileRead (NewFile f.path f.info f.b) n).2.1 = f.b.take n) := by
  constructor
  · rfl
  · intro n hne
    rw [fileRead]
    simp only [NewFile]
    rw [if_neg (show ¬ (f.b.length ≤ 0) from
      fun hle => hne (List.eq_nil_of_length_eq_zero (Nat.le_zero.mp hle)))]
    show (f.b.drop 0).take n = f.b.take n
    rw [List.drop_zero]

/-- Witness for C10 on a file whose reader sits at position 2. -/
theorem close_resets_reader_witness :
    fileClose ⟨gs "/a", ⟨3, false⟩, [1, 2, 3], 2⟩ =
      .ok (NewFile (gs "/a") ⟨3, false⟩ [1, 2, 3]) ∧
    (fileRead (NewFile (gs "/a") ⟨3, false⟩ [1, 2, 3]) 2).2.1 = [1, 2] :=
  ⟨(close_resets_reader ⟨gs "/a", ⟨3, false⟩, [1, 2, 3], 2⟩).1,
   (close_resets_reader ⟨gs "/a", ⟨3, false⟩, [1, 2, 3], 2⟩).2 2 (by decide)⟩

/-! ## Heap model for buffer aliasing (defensive copies, claim C9) -/

/-- The heap of live byte buffers: an address is an index into the list and
    allocation appends a new buffer. -/
abbrev Heap := List Bytes

def hAlloc (h : Heap) (v : Bytes) : Heap × Nat := (h ++ [v], h.length)

def hRead (h : Heap) (a : Nat) : Bytes := h.getD a []

/-- Mutate one byte of the buffer at address a. -/
def hWrite (h : Heap) (a i v : Nat) : Heap := h.set a ((h.getD a []).set i v)

/-- File in the heap model: the content field is the address of a buffer. -/
structure HFile where
  path : GoStr
  info : FInfo
  addr : Nat
deriving DecidableEq

/-- NewFile from fs.go in the heap model: make a fresh buffer and copy the
    caller's buffer into it (make + copy in the source). -/
def hNewFile (h : Heap) (path : GoStr) (info : FInfo) (src : Nat) : Heap × HFile :=
  ((hAlloc h (hRead h src)).1, ⟨path, info, (hAlloc h (hRead h src)).2⟩)

abbrev HFiles := List (GoStr × HFile)

def hMapGet : HFiles → GoStr → Option HFile
  | [], _ => none
  | (k2, v) :: t, k => if k2 = k then some v else hMapGet t k

/-- memFS.Get from fs.go in the heap model: the returned File carries a
    fresh copy of the stored buffer, made by NewFile. -/
def hGet (h : Heap) (fs : HFiles) (p : GoStr) : Except GoErr (Heap × HFile) :=
  match hMapGet fs (cleanPath ['/'] p) with
  | none => .error .notExist
  | some f => .ok (hNewFile h f.path f.info f.addr)

/-- File.ReadBytes from fs.go in the heap model: allocates a fresh copy of
    the content buffer and returns its address. -/
def hReadBytes (h : Heap) (f : HFile) : Heap × Nat := hAlloc h (hRead h f.addr)

/-- The bytes a get or read on path p hands out: the stored buffer's
    current content. -/
def hContent (h : Heap) (fs : HFiles) (p : GoStr) : Option Bytes :=
  match hMapGet fs (cleanPath ['/'] p) with
  | none => none
  | some f => some (hRead h f.addr)

/-- All buffer addresses owned by the filesystem's entries. -/
def fsAddrs (fs : HFiles) : List Nat := fs.map fun kv => kv.2.addr

/-- Valid heap: every stored address is an allocated buffer. -/
def hValid (h : Heap) (fs : HFiles) : Prop := ∀ a ∈ fsAddrs fs, a < h.length

theorem hRead_append_lt (h : Heap) (v : Bytes) (a : Nat) (ha : a < h.length) :
    hRead (h ++ [v]) a = hRead h a := by
  simp [hRead, List.getD, List.getElem?_append, ha]

theorem hRead_append_self (h : Heap) (v : Bytes) : hRead (h ++ [v]) h.length = v := by
  simp [hRead, List.getD, List.getElem?_concat_length]

theorem hRead_write_ne (h : Heap) (a i v b : Nat) (hne : b ≠ a) :
    hRead (hWrite h a i v) b = hRead h b := by
  simp [hRead, hWrite, List.getD, List.getElem?_set_ne (Ne.symm hne)]

theorem hMapGet_mem {fs : HFiles} {k : GoStr} {v : HFile}
    (h : hMapGet fs k = some v) : (k, v) ∈ fs := by
  induction fs with
  | nil => cases h
  | cons kv t ih =>
    obtain ⟨k2, v2⟩ := kv
    by_cases he : k2 = k
    · rw [hMapGet, if_pos he] at h
      subst he
      obtain rfl : v2 = v := by injection h
      exact List.mem_cons_self _ _
    · rw [hMapGet, if_neg he] at h
      exact List.mem_cons_of_mem _ (ih h)

instance hValid_decidable (h : Heap) (fs : HFiles) : Decidable (hValid h fs) :=
  decidable_of_iff (∀ a ∈ fsAddrs fs, a < h.length) Iff.rfl

/-! ## Claim C9: every buffer handed out is a defensive copy -/

/-- C9: on a valid heap, Get returns a File whose buffer is freshly
    allocated: it is none of the filesystem's own buffers, its content is
    the stored content, mutating it at any index changes no later get/read
    content on the same filesystem, and a second Get never returns the same
    buffer. ReadBytes likewise hands out a fresh buffer whose mutation
    changes nothing, and a caller's buffer passed to NewFile (the entry to be
    added) is copied, so mutating the caller's buffer afterwards leaves the
    new file's content unchanged. -/
theorem get_defensive_copy (h : Heap) (fs : HFiles) (p : GoStr)
    (hv : hValid h fs) (h1 : Heap) (f1 : HFile)
    (hg : hGet h fs p = .ok (h1, f1)) :
    f1.addr ∉ fsAddrs fs ∧
    some (hRead h1 f1.addr) = hContent h fs p ∧
    (∀ i v q, hContent (hWrite h1 f1.addr i v) fs q = hContent h fs q) ∧
    (∀ q h2 f2, hGet h1 fs q = .ok (h2, f2) → f2.addr ≠ f1.addr) ∧
    ((hReadBytes h1 f1).2 ∉ fsAddrs fs ∧
      ∀ i v q, hContent (hWrite (hReadBytes h1 f1).1 (hReadBytes h1 f1).2 i v) fs q =
        hContent h fs q) ∧
    (∀ path info src i v, src < h.length →
      (hNewFile h path info src).2.addr ≠ src ∧
      hRead (hWrite (hNewFile h path info src).1 src i v)
        (hNewFile h path info src).2.addr = hRead h src) := by
  cases hm : hMapGet fs (cleanPath ['/'] p) with
  | none =>
    rw [hGet, hm] at hg
    cases hg
  | some f =>
    rw [hGet, hm] at hg
    have hpair : (hNewFile h f.path f.info f.addr) = (h1, f1) := by injection hg
    have hh1 : h1 = h ++ [hRead h f.addr] := (congrArg Prod.fst hpair).symm
    have hf1 : (⟨f.path, f.info, h.length⟩ : HFile) = f1 := congrArg Prod.snd hpair
    have hf1a : f1.addr = h.length := by rw [← hf1]
    have hlen1 : h1.length = h.length + 1 := by rw [hh1]; simp
    refine ⟨?_, ?_, ?_, ?_, ⟨?_, ?_⟩, ?_⟩
    · intro hmem
      exact absurd (hf1a ▸ hv _ hmem) (lt_irrefl _)
    · rw [hContent, hm, hh1, hf1a, hRead_append_self]
    · intro i v q
      rw [hContent, hContent]
      cases hq : hMapGet fs (cleanPath ['/'] q) with
      | none => rfl
      | some g =>
        have hga : g.addr < h.length := hv _ (List.mem_map.mpr ⟨_, hMapGet_mem hq, rfl⟩)
        show some (hRead (hWrite h1 f1.addr i v) g.addr) = some (hRead h g.addr)
        rw [hRead_write_ne _ _ _ _ _ (by rw [hf1a]; exact Nat.ne_of_lt hga),
            hh1, hRead_append_lt _ _ _ hga]
    · intro q h2 f2 hg2
      cases hq : hMapGet fs (cleanPath ['/'] q) with
      | none =>
        rw [hGet, hq] at hg2
        cases hg2
      | some g =>
        rw [hGet, hq] at hg2
        have hpair2 : (hNewFile h1 g.path g.info g.addr) = (h2, f2) := by injection hg2
        have hf2 : (⟨g.path, g.info, h1.length⟩ : HFile) = f2 := congrArg Prod.snd hpair2
        have hf2a : f2.addr = h1.length := by rw [← hf2]
        rw [hf2a, hf1a, hlen1]
        omega
    · intro hmem
      have := hv _ hmem
      have h2 : (hReadBytes h1 f1).2 = h1.length := rfl
      rw [h2, hlen1] at this
      omega
    · intro i v q
      rw [hContent, hContent]
      cases hq : hMapGet fs (cleanPath ['/'] q) with
      | none => rfl
      | some g =>
        have hga : g.addr < h.length := hv _ (List.mem_map.mpr ⟨_, hMapGet_mem hq, rfl⟩)
        have hga1 : g.addr < h1.length := by omega
        have hr2 : (hReadBytes h1 f1).2 = h1.length := rfl
        have hr1 : (hReadBytes h1 f1).1 = h1 ++ [hRead h1 f1.addr] := rfl
        rw [hr1, hr2]
        show some (hRead (hWrite (h1 ++ [hRead h1 f1.addr]) h1.length i v) g.addr) =
          some (hRead h g.addr)
        rw [hRead_write_ne _ _ _ _ _ (Nat.ne_of_lt hga1),
            hRead_append_lt _ _ _ hga1, hh1, hRead_append_lt _ _ _ hga]
    · intro path info src i v hsrc
      have haddr : (hNewFile h path info src).2.addr = h.length := rfl
      have hheap : (hNewFile h path info src).1 = h ++ [hRead h src] := rfl
      refine ⟨by rw [haddr]; omega, ?_⟩
      rw [haddr, hheap, hRead_write_ne _ _ _ _ _ (by omega), hRead_append_self]

/-- Witness for C9 on a one-entry filesystem over a one-buffer heap. -/
theorem get_defensive_copy_witness :
    (1 : Nat) ∉ fsAddrs [(gs "/a", ⟨gs "/a", ⟨1, false⟩, 0⟩)] ∧
    some (hRead [[5], [5]] 1) = hContent [[5]] [(gs "/a", ⟨gs "/a", ⟨1, false⟩, 0⟩)] (gs "/a") :=
  ⟨(get_defensive_copy [[5]] [(gs "/a", ⟨gs "/a", ⟨1, false⟩, 0⟩)] (gs "/a")
      (by decide) [[5], [5]] ⟨gs "/a", ⟨1, false⟩, 1⟩ rfl).1,
   (get_defensive_copy [[5]] [(gs "/a", ⟨gs "/a", ⟨1, false⟩, 0⟩)] (gs "/a")
      (by decide) [[5], [5]] ⟨gs "/a", ⟨1, false⟩, 1⟩ rfl).2.1⟩

/-! ## The archive container and the unstuffing pipeline (unstuff.go) -/

/-- Unary length marker used by the modelled container format. -/
def unary (n : Nat) : Bytes := List.replicate n 1 ++ [0]

/-- Modelled from the spec: the external archive codec (the archive/zip
    standard library that zipFiles and UnZip delegate to, out of scope per
    the spec). Spec 4.3 requires only that the container stores, per entry,
    the authoritative name (the virtual path that zipFile writes into the
    header) and the content bytes, and that decoding enumerates exactly the
    stored entries or fails on a malformed blob. The concrete byte format
    here is a simple injective length-prefixed encoding. -/
def packEntry (e : GoStr × Bytes) : Bytes :=
  unary e.1.length ++ e.1.map Char.toNat ++ unary e.2.length ++ e.2

/-- Modelled from the spec: the archive of a list of entries. -/
def pack : List (GoStr × Bytes) → Bytes
  | [] => []
  | e :: es => packEntry e ++ pack es

/-- Decode one unary length marker. -/
def takeUnary : Bytes → Option (Nat × Bytes)
  | [] => none
  | x :: rest =>
    if x = 0 then some (0, rest)
    else if x = 1 then
      match takeUnary rest with
      | some (n, r) => some (n + 1, r)
      | none => none
    else none

/-- Modelled from the spec: the archive decoder, fuelled by the remaining
    byte count; fails with a decode error on any malformed blob. -/
def unpackFuel : Nat → Bytes → Except GoErr (List (GoStr × Bytes))
  | 0, b => if b = [] then .ok [] else .error .zipFormat
  | fuel + 1, b =>
    if b = [] then .ok []
    else
      match takeUnary b with
      | none => .error .zipFormat
      | some (nl, r1) =>
        if nl ≤ r1.length then
          match takeUnary (r1.drop nl) with
          | none => .error .zipFormat
          | some (cl, r3) =>
            if cl ≤ r3.length then
              match unpackFuel fuel (r3.drop cl) with
              | .ok es => .ok (((r1.take nl).map Char.ofNat, r3.take cl) :: es)
              | .error e => .error e
            else .error .zipFormat
        else .error .zipFormat

/-- Modelled from the spec: decode an archive blob into entries. -/
def unpack (b : Bytes) : Except GoErr (List (GoStr × Bytes)) := unpackFuel b.length b

/-- The key under which an archive entry lands in the filesystem. -/
def entryKey (e : GoStr × Bytes) : GoStr := cleanPath [] e.1

/-- The File built by UnZip for an archive entry: the zip header name, a
    FileInfo reporting the uncompressed size, and the content bytes. -/
def entryFile (e : GoStr × Bytes) : File := NewFile e.1 ⟨e.2.length, false⟩ e.2

/-- The Add loop of UnZip from unstuff.go. -/
def addAll : MemFS → List (GoStr × Bytes) → Except GoErr MemFS
  | fs, [] => .ok fs
  | fs, e :: es =>
    match memAdd fs (entryFile e) with
    | .error err => .error err
    | .ok fs2 => addAll fs2 es

/-- UnZip from unstuff.go: decode the blob and Add every entry to a fresh
    filesystem, aborting on the first error. -/
def UnZip (b : Bytes) : Except GoErr MemFS :=
  match unpack b with
  | .error e => .error e
  | .ok es => addAll emptyFS es

/-- getZipBytes from unstuff.go: ReadAt of zipLen bytes at the offset; fails
    when the file does not hold that many bytes there. -/
def getZipBytes (f : Bytes) (offset zipLen : Nat) : Except GoErr Bytes :=
  if offset + zipLen ≤ f.length then .ok ((f.drop offset).take zipLen)
  else .error .readAt

/-- GetStuff from unstuff.go. -/
def GetStuff (f : Bytes) : Except GoErr Bytes :=
  match GetFileID f with
  | .error e => .error e
  | .ok id => getZipBytes f id.BinSize id.ZipSize

/-- UnStuff from unstuff.go. -/
def UnStuff (f : Bytes) : Except GoErr MemFS :=
  match GetStuff f with
  | .error e => .error e
  | .ok b => UnZip b

/-! ## Codec roundtrip lemmas -/

theorem takeUnary_unary (n : Nat) (rest : Bytes) :
    takeUnary (unary n ++ rest) = some (n, rest) := by
  induction n with
  | zero => rfl
  | succ n ih =>
    rw [show unary (n + 1) ++ rest = 1 :: (unary n ++ rest) from by
          simp [unary, List.replicate_succ],
        takeUnary, if_neg (by decide), if_pos rfl, ih]

theorem ofNat_toNat_map (l : List Char) : (l.map Char.toNat).map Char.ofNat = l := by
  rw [List.map_map]
  have h : (Char.ofNat ∘ Char.toNat) = id := funext fun c => Char.ofNat_toNat c
  rw [h, List.map_id]

theorem unpackFuel_pack (es : List (GoStr × Bytes)) :
    ∀ fuel, es.length ≤ fuel → unpackFuel fuel (pack es) = .ok es := by
  induction es with
  | nil =>
    intro fuel _
    cases fuel with
    | zero => rfl
    | succ fuel => rfl
  | cons e es ih =>
    intro fuel hf
    obtain ⟨name, content⟩ := e
    cases fuel with
    | zero => simp at hf
    | succ fuel =>
      have hne : pack ((name, content) :: es) ≠ [] := by
        simp [pack, packEntry, unary]
      have hshape : pack ((name, content) :: es) =
          unary name.length ++ (name.map Char.toNat ++
            (unary content.length ++ (content ++ pack es))) := by
        simp [pack, packEntry, List.append_assoc]
      have hih : unpackFuel fuel (pack es) = .ok es := ih fuel (by simpa using hf)
      rw [unpackFuel, if_neg hne, hshape]
      simp only [takeUnary_unary]
      rw [if_pos (by simp), List.drop_left' (by simp), List.take_left' (by simp)]
      simp only [takeUnary_unary]
      rw [if_pos (by simp), List.drop_left' rfl, List.take_left' rfl]
      simp only [hih, ofNat_toNat_map]

theorem packEntry_length_pos (e : GoStr × Bytes) : 0 < (packEntry e).length := by
  simp [packEntry, unary]

theorem length_le_pack_length (es : List (GoStr × Bytes)) : es.length ≤ (pack es).length := by
  induction es with
  | nil => simp [pack]
  | cons e es ih =>
    rw [pack]
    simp only [List.length_append, List.length_cons]
    have := packEntry_length_pos e
    omega

theorem unpack_pack (es : List (GoStr × Bytes)) : unpack (pack es) = .ok es :=
  unpackFuel_pack es _ (length_le_pack_length es)

/-- The UnZip Add loop succeeds and appends one entry per archive record,
    provided no two records collide on their normalized key and no record's
    raw name collides with an earlier record's key. -/
theorem addAll_ok (es : List (GoStr × Bytes)) :
    ∀ fs : MemFS,
      (∀ e ∈ es, mapGet fs.files (entryKey e) = none ∧ mapGet fs.files e.1 = none) →
      (es.map entryKey).Nodup →
      List.Pairwise (fun a b => b.1 ≠ entryKey a) es →
      addAll fs es = .ok ⟨fs.files ++ es.map (fun e => (entryKey e, entryFile e)),
        fs.size + (es.map fun e => e.2.length).sum⟩ := by
  induction es with
  | nil =>
    intro fs _ _ _
    simp [addAll]
  | cons e es ih =>
    intro fs habsent hnd hpw
    have he := habsent e (List.mem_cons_self e es)
    have hadd : memAdd fs (entryFile e) =
        .ok ⟨fs.files ++ [(entryKey e, entryFile e)], fs.size + e.2.length⟩ := by
      rw [memAdd, if_neg (by rw [show (entryFile e).path = e.1 from rfl, he.2]; simp),
          show cleanPath [] (entryFile e).path = entryKey e from rfl,
          mapSet_eq_append _ _ _ he.1]
      rfl
    rw [List.map_cons] at hnd
    have hkey_ne : ∀ e2 ∈ es, entryKey e2 ≠ entryKey e := by
      intro e2 h2 heq
      exact (List.nodup_cons.mp hnd).1 (heq ▸ List.mem_map.mpr ⟨e2, h2, rfl⟩)
    have hraw_ne : ∀ e2 ∈ es, e2.1 ≠ entryKey e :=
      fun e2 h2 => (List.pairwise_cons.mp hpw).1 e2 h2
    have hstep := ih ⟨fs.files ++ [(entryKey e, entryFile e)], fs.size + e.2.length⟩
      (fun e2 h2 => ⟨by
          rw [mapGet_append_single_ne _ _ _ _ (hkey_ne e2 h2)]
          exact (habsent e2 (List.mem_cons_of_mem e h2)).1,
        by
          rw [mapGet_append_single_ne _ _ _ _ (hraw_ne e2 h2)]
          exact (habsent e2 (List.mem_cons_of_mem e h2)).2⟩)
      (List.nodup_cons.mp hnd).2 (List.pairwise_cons.mp hpw).2
    rw [addAll]
    simp only [hadd, hstep]
    have harr : (fs.files ++ [(entryKey e, entryFile e)]) ++
        es.map (fun e2 => (entryKey e2, entryFile e2)) =
        fs.files ++ ((e :: es).map fun e2 => (entryKey e2, entryFile e2)) := by
      rw [List.map_cons, List.append_assoc]
      rfl
    have hnum : fs.size + e.2.length + (es.map fun e2 => e2.2.length).sum =
        fs.size + ((e :: es).map fun e2 => e2.2.length).sum := by
      rw [List.map_cons, List.sum_cons]
      omega
    rw [harr, hnum]

/-! ## Claim C5: UnStuff error propagation and population -/

/-- C5: whenever footer decoding yields the NoID signal, UnStuff fails with
    exactly that signal (so a caller can recognize an unstuffed binary);
    otherwise GetStuff reads exactly ZipSize bytes starting at offset BinSize,
    and — when that slice decodes into entries whose keys do not collide —
    UnStuff returns a fresh filesystem populated with every decoded entry. -/
theorem unStuff_spec :
    (∀ f, GetFileID f = .error .noID → UnStuff f = .error .noID) ∧
    (∀ f id es, GetFileID f = .ok id →
      id.BinSize + id.ZipSize ≤ f.length →
      unpack ((f.drop id.BinSize).take id.ZipSize) = .ok es →
      (es.map entryKey).Nodup →
      List.Pairwise (fun a b => b.1 ≠ entryKey a) es →
      GetStuff f = .ok ((f.drop id.BinSize).take id.ZipSize) ∧
      UnStuff f = .ok ⟨es.map (fun e => (entryKey e, entryFile e)),
        (es.map fun e => e.2.length).sum⟩) := by
  constructor
  · intro f hf
    rw [UnStuff, GetStuff, hf]
  · intro f id es hid hle hun hnd hpw
    have hgs : GetStuff f = .ok ((f.drop id.BinSize).take id.ZipSize) := by
      rw [GetStuff, hid]
      show getZipBytes f id.BinSize id.ZipSize = _
      rw [getZipBytes, if_pos hle]
    refine ⟨hgs, ?_⟩
    rw [UnStuff, hgs]
    show UnZip _ = _
    rw [UnZip, hun]
    show addAll emptyFS es = _
    rw [addAll_ok es emptyFS (fun e _ => ⟨rfl, rfl⟩) hnd hpw]
    simp [emptyFS]

/-- Witness for C5: a 1-byte binary stuffed with a one-entry archive. -/
theorem unStuff_spec_witness :
    GetStuff (stuffBytes [7] (pack [(gs "/a", [1])])) =
      .ok (((stuffBytes [7] (pack [(gs "/a", [1])])).drop 1).take 8) ∧
    UnStuff (stuffBytes [7] (pack [(gs "/a", [1])])) =
      .ok ⟨[(entryKey (gs "/a", [1]), entryFile (gs "/a", [1]))], 1⟩ :=
  unStuff_spec.2 (stuffBytes [7] (pack [(gs "/a", [1])]))
    (makeID buildName 1 8) [(gs "/a", [1])]
    (by rfl) (by decide) (by rfl) (by decide) (by decide)

/-! ## Host filesystem model and the Path Resolver (walkPaths from stuff.go) -/

/-- The host filesystem: regular files only, path to content, with paths in
    the cleaned form in which filepath.Walk reports them. -/
abbrev HostFS := List (GoStr × Bytes)

def hostLookup : HostFS → GoStr → Option Bytes
  | [], _ => none
  | (k, v) :: t, p => if k = p then some v else hostLookup t p

/-- os.Stat on the host model: a path names a file when it is stored, a
    directory when some stored file lies strictly below it, and errors
    otherwise. -/
def hostStat (h : HostFS) (p : GoStr) : Except GoErr FInfo :=
  match hostLookup h p with
  | some b => .ok ⟨b.length, false⟩
  | none =>
    if h.any (fun f => (p ++ ['/']).isPrefixOf f.1) then .ok ⟨0, true⟩
    else .error .statErr

/-- filepath.Walk restricted to the regular files below a directory, in the
    host list's order (directory nodes are skipped by the callback, and the
    claims are insensitive to walk order). -/
def walkDir (h : HostFS) (src : GoStr) : List (GoStr × Bytes) :=
  h.filter fun f => (src ++ ['/']).isPrefixOf f.1

/-- One specification's contribution to walkPaths from stuff.go: split off
    the optional alias, reject more than one delimiter, stat the source, and
    emit either the directory's descendants (alias prefix replacing the
    source-directory prefix) or the single file. -/
def walkOne (h : HostFS) (rootPath fp : GoStr) :
    Except GoErr (List (GoStr × GoStr × FInfo)) :=
  if 2 < (splitOnChar ':' fp).length then .error .invalidAlias
  else
    match hostStat h (goClean (splitOnChar ':' fp).headI) with
    | .error e => .error e
    | .ok stat =>
      if stat.isDir then
        .ok ((walkDir h (goClean (splitOnChar ':' fp).headI)).map fun f =>
          (f.1,
           goJoin rootPath
             (if (splitOnChar ':' fp).length = 2 then
                goJoin (cleanPath ['/'] ((splitOnChar ':' fp).drop 1).headI)
                  (trimPref f.1 (goClean (splitOnChar ':' fp).headI))
              else f.1),
           (⟨f.2.length, false⟩ : FInfo)))
      else
        .ok [(goClean (splitOnChar ':' fp).headI,
          if (splitOnChar ':' fp).length = 2 then
            cleanPath ['/'] ((splitOnChar ':' fp).drop 1).headI
          else cleanPath rootPath (goClean (splitOnChar ':' fp).headI),
          stat)]

/-- walkPaths from stuff.go over a list of specifications, emitting
    (source, target, info) triples and aborting on the first error. -/
def walkPaths (h : HostFS) (rootPath : GoStr) :
    List GoStr → Except GoErr (List (GoStr × GoStr × FInfo))
  | [] => .ok []
  | fp :: fps =>
    match walkOne h rootPath fp with
    | .error e => .error e
    | .ok ts =>
      match walkPaths h rootPath fps with
      | .error e => .error e
      | .ok rest => .ok (ts ++ rest)

/-- The archive entries zipFiles produces: entry name = target path from the
    resolver (zipFile overwrites the header name), content = source bytes. -/
def zipEntries (h : HostFS) (ts : List (GoStr × GoStr × FInfo)) : List (GoStr × Bytes) :=
  ts.map fun t => (t.2.1, (hostLookup h t.1).getD [])

/-- zipFiles from stuff.go. -/
def zipFiles (h : HostFS) (rootPath : GoStr) (paths : List GoStr) : Except GoErr Bytes :=
  match walkPaths h rootPath paths with
  | .error e => .error e
  | .ok ts => .ok (pack (zipEntries h ts))

/-- Stuff from stuff.go, end to end: build the archive over the resolved
    file specs and append it with a fresh footer to a copy of the binary,
    returning also the two sizes. -/
def Stuff (h : HostFS) (inBin : Bytes) (rootPath : GoStr) (files : List GoStr) :
    Except GoErr (Bytes × Nat × Nat) :=
  match zipFiles h rootPath files with
  | .error e => .error e
  | .ok z => .ok (stuffBytes inBin z, stuffOrigSize inBin, z.length)

theorem truncPad_length (b : Bytes) (n : Nat) : (truncPad b n).length = n := by
  rw [truncPad]
  by_cases hn : n ≤ b.length
  · rw [if_pos hn]
    simp [hn]
  · rw [if_neg hn]
    simp
    omega

/-! ## Path component lemmas for the resolver -/

/-- A path component that filepath.Clean keeps verbatim. -/
def plainComp (c : GoStr) : Prop :=
  c ≠ [] ∧ c ≠ ['.'] ∧ c ≠ ['.', '.'] ∧ '/' ∉ c

instance plainComp_decidable (c : GoStr) : Decidable (plainComp c) :=
  decidable_of_iff (c ≠ [] ∧ c ≠ ['.'] ∧ c ≠ ['.', '.'] ∧ '/' ∉ c) Iff.rfl

theorem cleanStack_nil (rooted : Bool) (out : List GoStr) :
    cleanStack rooted out [] = out.reverse := by
  rw [cleanStack.eq_def]

theorem cleanStack_cons (rooted : Bool) (out : List GoStr) (c : GoStr) (cs : List GoStr) :
    cleanStack rooted out (c :: cs) =
      if c = [] ∨ c = ['.'] then cleanStack rooted out cs
      else if c = ['.', '.'] then
        match out with
        | [] => if rooted then cleanStack rooted [] cs else cleanStack rooted [c] cs
        | o :: os =>
          if o = ['.', '.'] then cleanStack rooted (c :: o :: os) cs
          else cleanStack rooted os cs
      else cleanStack rooted (c :: out) cs := by
  rw [cleanStack.eq_def]

theorem splitOnChar_no_sep (sep : Char) (c : GoStr) (h : sep ∉ c) :
    splitOnChar sep c = [c] := by
  induction c with
  | nil => rfl
  | cons x r ih =>
    rw [splitOnChar,
        if_neg (show ¬ x = sep from fun he => h (by rw [← he]; exact List.mem_cons_self x r)),
        ih fun hm => h (List.mem_cons_of_mem x hm)]

theorem splitOnChar_append_sep (sep : Char) (c r : GoStr) (h : sep ∉ c) :
    splitOnChar sep (c ++ sep :: r) = c :: splitOnChar sep r := by
  induction c with
  | nil =>
    show splitOnChar sep (sep :: r) = [] :: splitOnChar sep r
    rw [splitOnChar, if_pos rfl]
  | cons x cc ih =>
    rw [List.cons_append, splitOnChar,
        if_neg (show ¬ x = sep from fun he => h (by rw [← he]; exact List.mem_cons_self x cc)),
        ih fun hm => h (List.mem_cons_of_mem x hm)]

theorem splitOnChar_joinComps (cs : List GoStr) (hne : cs ≠ [])
    (h : ∀ c ∈ cs, '/' ∉ c) :
    splitOnChar '/' (joinComps cs) = cs := by
  induction cs with
  | nil => exact absurd rfl hne
  | cons c cs ih =>
    cases cs with
    | nil => exact splitOnChar_no_sep '/' c (h c (List.mem_cons_self c []))
    | cons c2 cs2 =>
      rw [joinComps, splitOnChar_append_sep '/' c _ (h c (List.mem_cons_self _ _)),
          ih (by simp) fun d hd => h d (List.mem_cons_of_mem c hd)]

theorem cleanStack_plain_append (rooted : Bool) (as : List GoStr) :
    ∀ out ys, (∀ c ∈ as, c ≠ [] ∧ c ≠ ['.'] ∧ c ≠ ['.', '.']) →
      cleanStack rooted out (as ++ ys) = cleanStack rooted (as.reverse ++ out) ys := by
  induction as with
  | nil =>
    intro out ys _
    rfl
  | cons c as ih =>
    intro out ys hp
    have hc := hp c (List.mem_cons_self c as)
    rw [List.cons_append, cleanStack_cons, if_neg (not_or.mpr ⟨hc.1, hc.2.1⟩),
        if_neg hc.2.2, ih (c :: out) ys fun d hd => hp d (List.mem_cons_of_mem c hd),
        List.reverse_cons, List.append_assoc]
    rfl

theorem cleanStack_plain_out (rooted : Bool) (out cs : List GoStr)
    (hp : ∀ c ∈ cs, c ≠ [] ∧ c ≠ ['.'] ∧ c ≠ ['.', '.']) :
    cleanStack rooted out cs = out.reverse ++ cs := by
  have h := cleanStack_plain_append rooted cs out [] hp
  rw [List.append_nil] at h
  rw [h, cleanStack_nil]
  simp

theorem cleanStack_skip_empty (rooted : Bool) (out cs : List GoStr) :
    cleanStack rooted out ([] :: cs) = cleanStack rooted out cs := by
  rw [cleanStack_cons, if_pos (Or.inl rfl)]

theorem plain_triple {cs : List GoStr} (hp : ∀ c ∈ cs, plainComp c) :
    ∀ c ∈ cs, c ≠ [] ∧ c ≠ ['.'] ∧ c ≠ ['.', '.'] :=
  fun c hc => ⟨(hp c hc).1, (hp c hc).2.1, (hp c hc).2.2.1⟩

theorem goClean_rooted_fixed (cs : List GoStr) (hp : ∀ c ∈ cs, plainComp c) :
    goClean ('/' :: joinComps cs) = '/' :: joinComps cs := by
  cases cs with
  | nil => decide
  | cons c cs2 =>
    have hsplit : splitOnChar '/' ('/' :: joinComps (c :: cs2)) = [] :: (c :: cs2) := by
      rw [splitOnChar, if_pos rfl,
          splitOnChar_joinComps _ (by simp) fun d hd => (hp d hd).2.2.2]
    rw [goClean, if_neg (by simp),
        if_pos (show isRooted ('/' :: joinComps (c :: cs2)) = true from rfl),
        hsplit, cleanStack_skip_empty,
        cleanStack_plain_out true [] _ (plain_triple hp), List.reverse_nil,
        List.nil_append]

theorem goJoin_root_fixed (cs : List GoStr) (hp : ∀ c ∈ cs, plainComp c) :
    goJoin (gs "/") ('/' :: joinComps cs) = '/' :: joinComps cs := by
  rw [goJoin, if_neg (by decide), if_neg (by simp)]
  show goClean ('/' :: '/' :: '/' :: joinComps cs) = _
  cases cs with
  | nil => decide
  | cons c cs2 =>
    have hsplit : splitOnChar '/' ('/' :: '/' :: '/' :: joinComps (c :: cs2)) =
        [] :: [] :: [] :: (c :: cs2) := by
      rw [splitOnChar, if_pos rfl, splitOnChar, if_pos rfl, splitOnChar, if_pos rfl,
          splitOnChar_joinComps _ (by simp) fun d hd => (hp d hd).2.2.2]
    rw [goClean, if_neg (by simp),
        if_pos (show isRooted ('/' :: '/' :: '/' :: joinComps (c :: cs2)) = true from rfl),
        hsplit, cleanStack_skip_empty, cleanStack_skip_empty, cleanStack_skip_empty,
        cleanStack_plain_out true [] _ (plain_triple hp), List.reverse_nil,
        List.nil_append]

theorem goJoin_alias (a : GoStr) (cs : List GoStr) (ha : plainComp a)
    (hcs : cs ≠ []) (hp : ∀ c ∈ cs, plainComp c) :
    goJoin ('/' :: a) ('/' :: joinComps cs) = '/' :: joinComps (a :: cs) := by
  rw [goJoin, if_neg (by simp), if_neg (by simp)]
  have hshape : ('/' :: a) ++ '/' :: ('/' :: joinComps cs) =
      '/' :: (a ++ '/' :: ('/' :: joinComps cs)) := rfl
  rw [hshape]
  have hsplit : splitOnChar '/' ('/' :: (a ++ '/' :: ('/' :: joinComps cs))) =
      [] :: a :: [] :: cs := by
    rw [splitOnChar, if_pos rfl, splitOnChar_append_sep '/' a _ ha.2.2.2,
        splitOnChar, if_pos rfl]
    cases cs with
    | nil => exact absurd rfl hcs
    | cons c cs2 =>
      rw [splitOnChar_joinComps _ (by simp) fun d hd => (hp d hd).2.2.2]
  rw [goClean, if_neg (by simp),
      if_pos (show isRooted ('/' :: (a ++ '/' :: '/' :: joinComps cs)) = true from rfl),
      hsplit, cleanStack_skip_empty,
      cleanStack_cons, if_neg (not_or.mpr ⟨ha.1, ha.2.1⟩), if_neg ha.2.2.1,
      cleanStack_skip_empty, cleanStack_plain_out true [a] _ (plain_triple hp)]
  rfl

theorem trimPref_append (a b : GoStr) : trimPref (a ++ b) a = b := by
  rw [trimPref, if_pos (List.isPrefixOf_iff_prefix.mpr (List.prefix_append a b)),
      List.drop_left]

/-! ## Claim C8: alias directory resolution -/

/-- C8: walking the directory specification "srcdir:/alias" with root "/",
    every descendant file srcdir/<rest> (for any nesting of plain path
    components) is emitted with virtual path /alias/<rest>: the matched
    source-directory prefix is replaced by the alias and the relative
    structure below it is preserved. -/
theorem alias_dir_resolution (h : HostFS) (cs : List GoStr) (content : Bytes)
    (hcs : cs ≠ []) (hplain : ∀ c ∈ cs, plainComp c)
    (hmem : (gs "srcdir" ++ '/' :: joinComps cs, content) ∈ h)
    (hnotfile : hostLookup h (gs "srcdir") = none) :
    ∃ ts, walkPaths h (gs "/") [gs "srcdir:/alias"] = .ok ts ∧
      (gs "srcdir" ++ '/' :: joinComps cs,
        gs "/alias" ++ '/' :: joinComps cs,
        (⟨content.length, false⟩ : FInfo)) ∈ ts := by
  have hsrc : goClean (splitOnChar ':' (gs "srcdir:/alias")).headI = gs "srcdir" := by decide
  have hpred : ((gs "srcdir") ++ ['/']).isPrefixOf (gs "srcdir" ++ '/' :: joinComps cs) = true := by
    rw [show gs "srcdir" ++ '/' :: joinComps cs =
          (gs "srcdir" ++ ['/']) ++ joinComps cs from by rw [List.append_assoc]; rfl]
    exact List.isPrefixOf_iff_prefix.mpr (List.prefix_append _ _)
  have hstat : hostStat h (gs "srcdir") = .ok ⟨0, true⟩ := by
    rw [hostStat, hnotfile]
    show (if h.any (fun f => ((gs "srcdir") ++ ['/']).isPrefixOf f.1) then
        (.ok ⟨0, true⟩ : Except GoErr FInfo) else .error .statErr) = .ok ⟨0, true⟩
    rw [if_pos (List.any_eq_true.mpr ⟨_, hmem, hpred⟩)]
  have hone : walkOne h (gs "/") (gs "srcdir:/alias") =
      .ok ((walkDir h (gs "srcdir")).map fun f =>
        (f.1, goJoin (gs "/") (goJoin (gs "/alias") (trimPref f.1 (gs "srcdir"))),
         (⟨f.2.length, false⟩ : FInfo))) := by
    rw [walkOne, if_neg (by decide), hsrc, hstat]
    rfl
  have hnil : walkPaths h (gs "/") ([] : List GoStr) = .ok [] := rfl
  refine ⟨(walkDir h (gs "srcdir")).map fun f =>
      (f.1, goJoin (gs "/") (goJoin (gs "/alias") (trimPref f.1 (gs "srcdir"))),
       (⟨f.2.length, false⟩ : FInfo)), ?_, ?_⟩
  · rw [walkPaths]
    simp only [hone, hnil]
    rw [List.append_nil]
  · apply List.mem_map.mpr
    refine ⟨(gs "srcdir" ++ '/' :: joinComps cs, content),
      List.mem_filter.mpr ⟨hmem, hpred⟩, ?_⟩
    show (gs "srcdir" ++ '/' :: joinComps cs,
        goJoin (gs "/") (goJoin (gs "/alias")
          (trimPref (gs "srcdir" ++ '/' :: joinComps cs) (gs "srcdir"))),
        (⟨content.length, false⟩ : FInfo)) = _
    have h1 : trimPref (gs "srcdir" ++ '/' :: joinComps cs) (gs "srcdir") =
        '/' :: joinComps cs := trimPref_append _ _
    have h2 : goJoin (gs "/alias") ('/' :: joinComps cs) =
        '/' :: joinComps (gs "alias" :: cs) :=
      goJoin_alias (gs "alias") cs (by decide) hcs hplain
    have h3 : goJoin (gs "/") ('/' :: joinComps (gs "alias" :: cs)) =
        '/' :: joinComps (gs "alias" :: cs) := by
      refine goJoin_root_fixed (gs "alias" :: cs) ?_
      intro d hd
      rcases List.mem_cons.mp hd with rfl | hd2
      · decide
      · exact hplain d hd2
    rw [h1, h2, h3]
    cases cs with
    | nil => exact absurd rfl hcs
    | cons c cs2 => rfl

/-- Witness for C8 on a host holding srcdir/sub/x.txt. -/
theorem alias_dir_resolution_witness :
    ∃ ts, walkPaths [(gs "srcdir/sub/x.txt", [9])] (gs "/") [gs "srcdir:/alias"] = .ok ts ∧
      (gs "srcdir" ++ '/' :: joinComps [gs "sub", gs "x.txt"],
        gs "/alias" ++ '/' :: joinComps [gs "sub", gs "x.txt"],
        (⟨1, false⟩ : FInfo)) ∈ ts :=
  alias_dir_resolution [(gs "srcdir/sub/x.txt", [9])] [gs "sub", gs "x.txt"] [9]
    (by decide) (by decide) (by decide) (by decide)

/-! ## Claim C1: stuff then unstuff round trip -/

/-- C1 counterexample: with the relative root "x", the resolver's target for
    spec "f.txt" is "x/f.txt", but the unstuffed filesystem lists the
    normalized key "/x/f.txt" — list() does not equal the resolver's target
    paths for every root path. -/
theorem roundtrip_counterexample :
    walkPaths [(gs "f.txt", [1])] (gs "x") [gs "f.txt"] =
      .ok [(gs "f.txt", gs "x/f.txt", ⟨1, false⟩)] ∧
    Stuff [(gs "f.txt", [1])] [7] (gs "x") [gs "f.txt"] =
      .ok (stuffBytes [7] (pack [(gs "x/f.txt", [1])]), 1,
        (pack [(gs "x/f.txt", [1])]).length) ∧
    UnStuff (stuffBytes [7] (pack [(gs "x/f.txt", [1])])) =
      .ok ⟨[(gs "/x/f.txt", entryFile (gs "x/f.txt", [1]))], 1⟩ ∧
    memList ⟨[(gs "/x/f.txt", entryFile (gs "x/f.txt", [1]))], 1⟩ ≠ [gs "x/f.txt"] :=
  ⟨rfl, rfl, rfl, by decide⟩

/-- C1 amended: stuffing a binary with the files resolved from any root and
    valid specifications (resolver succeeds; the resolved targets collide
    neither on their normalized keys nor raw-vs-key) and then unstuffing the
    output yields a filesystem whose list() equals the cleanPath
    normalizations of the resolver's target paths (the targets themselves
    whenever the root is absolute, e.g. "/"), and reading any target path
    returns content byte-for-byte equal to the source file's bytes. -/
theorem stuff_unstuff_roundtrip (h : HostFS) (bin : Bytes) (root : GoStr)
    (specs : List GoStr) (ts : List (GoStr × GoStr × FInfo))
    (hw : walkPaths h root specs = .ok ts)
    (hnd : ((zipEntries h ts).map entryKey).Nodup)
    (hpw : List.Pairwise (fun a b => b.1 ≠ entryKey a) (zipEntries h ts))
    (hb : stuffOrigSize bin < 2 ^ 64)
    (hz : (pack (zipEntries h ts)).length < 2 ^ 64) :
    Stuff h bin root specs = .ok (stuffBytes bin (pack (zipEntries h ts)),
      stuffOrigSize bin, (pack (zipEntries h ts)).length) ∧
    ∃ fs, UnStuff (stuffBytes bin (pack (zipEntries h ts))) = .ok fs ∧
      memList fs = ts.map (fun t => cleanPath [] t.2.1) ∧
      ∀ t ∈ ts, memRead fs t.2.1 = .ok ((hostLookup h t.1).getD []) := by
  have hstuff : Stuff h bin root specs =
      .ok (stuffBytes bin (pack (zipEntries h ts)), stuffOrigSize bin,
        (pack (zipEntries h ts)).length) := by
    rw [Stuff, zipFiles, hw]
  have hassoc : stuffBytes bin (pack (zipEntries h ts)) =
      truncPad bin (stuffOrigSize bin) ++ (pack (zipEntries h ts) ++
        makeIDBytes (makeID buildName (stuffOrigSize bin)
          (pack (zipEntries h ts)).length)) := by
    show (truncPad bin (stuffOrigSize bin) ++ pack (zipEntries h ts)) ++
        makeIDBytes _ = _
    rw [List.append_assoc]
  have hgid : GetFileID (stuffBytes bin (pack (zipEntries h ts))) =
      .ok (makeID buildName (stuffOrigSize bin) (pack (zipEntries h ts)).length) := by
    show GetFileID ((truncPad bin (stuffOrigSize bin) ++ pack (zipEntries h ts)) ++
      makeIDBytes (makeID buildName (stuffOrigSize bin)
        (pack (zipEntries h ts)).length)) = _
    exact getFileID_stuffed _ _ _ hb hz
  have hlen : (stuffBytes bin (pack (zipEntries h ts))).length =
      stuffOrigSize bin + (pack (zipEntries h ts)).length + lenID := by
    show ((truncPad bin (stuffOrigSize bin) ++ pack (zipEntries h ts)) ++
      makeIDBytes _).length = _
    rw [List.length_append, List.length_append, truncPad_length, makeIDBytes_length]
  have hslice : GetStuff (stuffBytes bin (pack (zipEntries h ts))) =
      .ok (pack (zipEntries h ts)) := by
    rw [GetStuff, hgid]
    show getZipBytes (stuffBytes bin (pack (zipEntries h ts)))
      (stuffOrigSize bin) (pack (zipEntries h ts)).length = _
    rw [getZipBytes, if_pos (by rw [hlen]; omega), hassoc,
        List.drop_left' (truncPad_length _ _), List.take_left]
  have hun : UnStuff (stuffBytes bin (pack (zipEntries h ts))) =
      .ok ⟨(zipEntries h ts).map (fun e => (entryKey e, entryFile e)),
        ((zipEntries h ts).map fun e => e.2.length).sum⟩ := by
    rw [UnStuff, hslice]
    show UnZip (pack (zipEntries h ts)) = _
    rw [UnZip, unpack_pack]
    show addAll emptyFS (zipEntries h ts) = _
    rw [addAll_ok (zipEntries h ts) emptyFS (fun e _ => ⟨rfl, rfl⟩) hnd hpw]
    simp [emptyFS]
  refine ⟨hstuff, ⟨(zipEntries h ts).map (fun e => (entryKey e, entryFile e)),
    ((zipEntries h ts).map fun e => e.2.length).sum⟩, hun, ?_, ?_⟩
  · show ((zipEntries h ts).map (fun e => (entryKey e, entryFile e))).map Prod.fst = _
    simp only [zipEntries, List.map_map]
    rfl
  · intro t ht
    have hnd2 : (((zipEntries h ts).map
        (fun e => (entryKey e, entryFile e))).map Prod.fst).Nodup := by
      rw [List.map_map]
      exact hnd
    have hmemt : (entryKey (t.2.1, (hostLookup h t.1).getD []),
        entryFile (t.2.1, (hostLookup h t.1).getD [])) ∈
        (zipEntries h ts).map (fun e => (entryKey e, entryFile e)) :=
      List.mem_map.mpr ⟨(t.2.1, (hostLookup h t.1).getD []),
        List.mem_map.mpr ⟨t, ht, rfl⟩, rfl⟩
    have hmg := mapGet_of_mem_nodup hmemt hnd2
    rw [memRead, memGet, ← cleanPath_nilRoot]
    rw [show cleanPath [] t.2.1 =
        entryKey (t.2.1, (hostLookup h t.1).getD []) from rfl, hmg]
    rfl

/-- Witness for the amended C1 on a one-file host stuffed into a one-byte
    binary with root "/". -/
theorem stuff_unstuff_roundtrip_witness :
    Stuff [(gs "a.txt", [5])] [7] (gs "/") [gs "a.txt"] =
      .ok (stuffBytes [7] (pack [(gs "/a.txt", [5])]), 1,
        (pack [(gs "/a.txt", [5])]).length) ∧
    ∃ fs, UnStuff (stuffBytes [7] (pack [(gs "/a.txt", [5])])) = .ok fs ∧
      memList fs = [gs "/a.txt"] ∧
      ∀ t ∈ [(gs "a.txt", gs "/a.txt", (⟨1, false⟩ : FInfo))],
        memRead fs t.2.1 = .ok ((hostLookup [(gs "a.txt", [5])] t.1).getD []) :=
  stuff_unstuff_roundtrip [(gs "a.txt", [5])] [7] (gs "/") [gs "a.txt"]
    [(gs "a.txt", gs "/a.txt", ⟨1, false⟩)] (by rfl) (by decide) (by decide)
    (by decide) (by decide)

end Stuffbin
